import Mathlib

/-!
Verification of the toggl-to-s3-schedule repository.

Shallow embedding of the two source modules:
* `app.py` — `serialise_entries_to_jsonl` and `lambda_handler`;
* `toggl_client.py` — `TogglClient` (login, `get_time_entries`,
  `get_project_map`, session lifecycle).

Python dicts holding JSON data are modelled as association lists of
`String × JVal` (Python dicts preserve insertion order, and dicts parsed
from JSON have no duplicate keys; the association-list model keeps the
insertion order the source code creates).  Text produced by the
serialiser is modelled as `List Char`.  HTTP traffic is modelled
explicitly: the functions under verification return the list of requests
they issue alongside their result, and take the responses the external
services would produce as arguments.
-/

/-- JSON values as produced by Python `json` for the primitive field
values appearing in Toggl time-entry records. -/
inductive JVal where
  | jnull
  | jbool (b : Bool)
  | jint (n : Int)
  | jstr (s : String)
deriving DecidableEq

/-- A JSON object (Python dict) as an insertion-ordered association list. -/
abbrev JObj := List (String × JVal)

/-- Decimal digits of a natural number, fuel-indexed so that the
definition is structurally recursive (the fuel only needs to dominate the
number of division steps). -/
def natToDigitsAux : Nat → Nat → List Char
  | 0, _ => []
  | fuel + 1, n =>
    if n < 10 then [Nat.digitChar n]
    else natToDigitsAux fuel (n / 10) ++ [Nat.digitChar (n % 10)]

/-- Decimal digit string of a natural number, as Python `str` prints it. -/
def natToDigits (n : Nat) : List Char :=
  natToDigitsAux (n + 1) n

/-- Decimal rendering of a Python integer (`json.dumps` of an `int`). -/
def intToDigits (i : Int) : List Char :=
  if i < 0 then '-' :: natToDigits i.natAbs else natToDigits i.natAbs

/-- Four lowercase hex digits, as in the `\uXXXX` escapes emitted by
Python `json.dumps` with its default `ensure_ascii=True`. -/
def hex4 (n : Nat) : List Char :=
  [Nat.digitChar (n / 4096 % 16), Nat.digitChar (n / 256 % 16),
   Nat.digitChar (n / 16 % 16), Nat.digitChar (n % 16)]

/-- Escape of one character inside a JSON string literal, following
Python `json.dumps` with `ensure_ascii=True`: the two-character escapes
for quote, backslash and the common control characters, `\uXXXX` for the
remaining control characters and for all non-ASCII characters of the
basic multilingual plane, and a surrogate pair of `\uXXXX` escapes for
characters above it. -/
def escapeChar (c : Char) : List Char :=
  if c = '"' then ['\\', '"']
  else if c = '\\' then ['\\', '\\']
  else if c = '\x08' then ['\\', 'b']
  else if c = '\x0c' then ['\\', 'f']
  else if c = '\n' then ['\\', 'n']
  else if c = '\x0d' then ['\\', 'r']
  else if c = '\t' then ['\\', 't']
  else if c.toNat < 0x20 ∨ (0x7f ≤ c.toNat ∧ c.toNat < 0x10000) then
    '\\' :: 'u' :: hex4 c.toNat
  else if 0x10000 ≤ c.toNat then
    ('\\' :: 'u' :: hex4 (0xd800 + (c.toNat - 0x10000) / 0x400)) ++
    ('\\' :: 'u' :: hex4 (0xdc00 + (c.toNat - 0x10000) % 0x400))
  else [c]

/-- Escape a whole string body character by character. -/
def escapeList : List Char → List Char
  | [] => []
  | c :: cs => escapeChar c ++ escapeList cs

/-- `json.dumps` of one primitive JSON value. -/
def encodeJVal : JVal → List Char
  | JVal.jnull => ['n', 'u', 'l', 'l']
  | JVal.jbool true => ['t', 'r', 'u', 'e']
  | JVal.jbool false => ['f', 'a', 'l', 's', 'e']
  | JVal.jint n => intToDigits n
  | JVal.jstr s => '"' :: escapeList s.data ++ ['"']

/-- One `"key": value` member, with the `": "` separator Python uses by
default. -/
def encodeField (kv : String × JVal) : List Char :=
  '"' :: escapeList kv.1.data ++ '"' :: ':' :: ' ' :: encodeJVal kv.2

/-- The members of an object joined by the default `", "` separator. -/
def encodeFields : List (String × JVal) → List Char
  | [] => []
  | [kv] => encodeField kv
  | kv :: rest => encodeField kv ++ ',' :: ' ' :: encodeFields rest

/-- `json.dumps` of a dict with the default separators. -/
def json_dumps (o : JObj) : List Char :=
  '{' :: (encodeFields o ++ ['}'])

/-- `"\n".join(...)` on a list of already encoded lines. -/
def joinNewline : List (List Char) → List Char
  | [] => []
  | [l] => l
  | l :: ls => l ++ '\n' :: joinNewline ls

/-- `serialise_entries_to_jsonl` from `app.py`: each entry JSON-encoded
on its own line, lines joined by a newline, the empty list mapped to the
empty string. -/
def serialise_entries_to_jsonl (entries : List JObj) : List Char :=
  if entries.isEmpty then [] else joinNewline (entries.map json_dumps)

/-- Python `str.split` on the single separator `"\n"`: `n` separators
yield `n + 1` pieces (the empty string yields one empty piece). -/
def splitNL : List Char → List (List Char)
  | [] => [[]]
  | c :: rest =>
    if c = '\n' then [] :: splitNL rest
    else match splitNL rest with
      | [] => [[c]]
      | p :: ps => (c :: p) :: ps

/-- Value of one hex digit character, lowercase letters as Python emits
them (a canonical JSON decoder also accepts uppercase; the encoder under
verification only produces lowercase). -/
def hexVal? (c : Char) : Option Nat :=
  if '0' ≤ c ∧ c ≤ '9' then some (c.toNat - 48)
  else if 'a' ≤ c ∧ c ≤ 'f' then some (c.toNat - 87)
  else none

/-- Read four hex digits. -/
def parseHex4 : List Char → Option (Nat × List Char)
  | a :: b :: c :: d :: rest =>
    match hexVal? a, hexVal? b, hexVal? c, hexVal? d with
    | some x, some y, some z, some w => some (4096 * x + 256 * y + 16 * z + w, rest)
    | _, _, _, _ => none
  | _ => none

/-- Prepend a character to the first component of a parse result. -/
def withFst (c : Char) (res : Option (List Char × List Char)) :
    Option (List Char × List Char) :=
  res.map (fun p => (c :: p.1, p.2))

/-- Decoder for the body of a JSON string literal (everything after the
opening quote, up to and including the closing quote), handling exactly
the escape forms the encoder emits, surrogate pairs included.  Returns
the decoded characters and the input remaining after the closing quote.
Fuel-indexed for structural recursion; one unit of fuel per decoded
character or closing quote. -/
def parseStrAux : Nat → List Char → Option (List Char × List Char)
  | 0, _ => none
  | _ + 1, [] => none
  | fuel + 1, c :: rest =>
    if c = '"' then some ([], rest)
    else if c = '\\' then
      match rest with
      | [] => none
      | e :: r =>
        if e = 'u' then
          match parseHex4 r with
          | none => none
          | some (n, r2) =>
            if 0xd800 ≤ n ∧ n < 0xdc00 then
              match r2 with
              | '\\' :: 'u' :: r3 =>
                match parseHex4 r3 with
                | none => none
                | some (m, r4) =>
                  if 0xdc00 ≤ m ∧ m < 0xe000 then
                    withFst (Char.ofNat (0x10000 + (n - 0xd800) * 0x400 + (m - 0xdc00)))
                      (parseStrAux fuel r4)
                  else none
              | _ => none
            else if 0xdc00 ≤ n ∧ n < 0xe000 then none
            else withFst (Char.ofNat n) (parseStrAux fuel r2)
        else if e = '"' then withFst '"' (parseStrAux fuel r)
        else if e = '\\' then withFst '\\' (parseStrAux fuel r)
        else if e = 'b' then withFst '\x08' (parseStrAux fuel r)
        else if e = 'f' then withFst '\x0c' (parseStrAux fuel r)
        else if e = 'n' then withFst '\n' (parseStrAux fuel r)
        else if e = 'r' then withFst '\x0d' (parseStrAux fuel r)
        else if e = 't' then withFst '\t' (parseStrAux fuel r)
        else none
    else withFst c (parseStrAux fuel rest)

/-- Longest prefix of decimal digits and the remaining input. -/
def spanDigits : List Char → List Char × List Char
  | [] => ([], [])
  | c :: cs =>
    if '0' ≤ c ∧ c ≤ '9' then
      match spanDigits cs with
      | (d, r) => (c :: d, r)
    else ([], c :: cs)

/-- Value of a list of decimal digit characters. -/
def digitsToNat (ds : List Char) : Nat :=
  ds.foldl (fun a c => a * 10 + (c.toNat - 48)) 0

/-- Decoder for a JSON integer in the form the encoder emits: an
optional minus sign followed by decimal digits. -/
def parseIntVal (s : List Char) : Option (Int × List Char) :=
  match s with
  | [] => none
  | c :: rest =>
    if c = '-' then
      match spanDigits rest with
      | ([], _) => none
      | (ds, r) => some (-(digitsToNat ds : Int), r)
    else
      match spanDigits (c :: rest) with
      | ([], _) => none
      | (ds, r) => some ((digitsToNat ds : Int), r)

/-- Decoder for one primitive JSON value in the canonical form the
encoder emits. -/
def parseJVal (fuel : Nat) (s : List Char) : Option (JVal × List Char) :=
  match s with
  | 'n' :: 'u' :: 'l' :: 'l' :: rest => some (JVal.jnull, rest)
  | 't' :: 'r' :: 'u' :: 'e' :: rest => some (JVal.jbool true, rest)
  | 'f' :: 'a' :: 'l' :: 's' :: 'e' :: rest => some (JVal.jbool false, rest)
  | '"' :: rest => (parseStrAux fuel rest).map (fun p => (JVal.jstr (String.mk p.1), p.2))
  | _ => (parseIntVal s).map (fun p => (JVal.jint p.1, p.2))

/-- Decoder for the members of a non-empty object: a `"key": value`
member followed either by `", "` and further members or by the closing
brace.  Fuel-indexed; one unit of fuel per member. -/
def parseFieldsAux : Nat → List Char → Option (JObj × List Char)
  | 0, _ => none
  | fuel + 1, s =>
    match s with
    | '"' :: s1 =>
      match parseStrAux (fuel + 1) s1 with
      | some (k, s2) =>
        match s2 with
        | ':' :: ' ' :: s3 =>
          match parseJVal (fuel + 1) s3 with
          | some (v, s4) =>
            match s4 with
            | ',' :: ' ' :: s5 =>
              match parseFieldsAux fuel s5 with
              | some (o, s6) => some ((String.mk k, v) :: o, s6)
              | none => none
            | '}' :: s5 => some ([(String.mk k, v)], s5)
            | _ => none
          | none => none
        | _ => none
      | none => none
    | _ => none

/-- Decoder for one JSONL line: a whole JSON object and nothing else.
This is the restriction of `json.loads` to the canonical texts the
encoder emits; on those it is proved below to be a left inverse of
`json_dumps`. -/
def parse_entry (s : List Char) : Option JObj :=
  match s with
  | '{' :: '}' :: [] => some []
  | '{' :: rest =>
    match parseFieldsAux (rest.length + 1) rest with
    | some (o, []) => some o
    | _ => none
  | _ => none

/-- A Python `datetime.date`: proleptic Gregorian calendar date. -/
structure PyDate where
  year : Nat
  month : Nat
  day : Nat
deriving DecidableEq

/-- Gregorian leap-year rule, as `datetime` implements it. -/
def isLeapYear (y : Nat) : Bool :=
  y % 4 = 0 && (y % 100 != 0 || y % 400 = 0)

/-- Number of days in a month of a given year. -/
def daysInMonth (y m : Nat) : Nat :=
  if m = 2 then (if isLeapYear y then 29 else 28)
  else if m = 4 ∨ m = 6 ∨ m = 9 ∨ m = 11 then 30
  else 31

/-- The representable-date invariant `datetime.date` enforces at
construction (`MINYEAR = 1`, `MAXYEAR = 9999`). -/
def PyDate.Valid (d : PyDate) : Prop :=
  1 ≤ d.year ∧ d.year ≤ 9999 ∧ 1 ≤ d.month ∧ d.month ≤ 12 ∧
    1 ≤ d.day ∧ d.day ≤ daysInMonth d.year d.month

instance (d : PyDate) : Decidable d.Valid := by
  unfold PyDate.Valid; infer_instance

/-- `d + timedelta(days=1)`: the calendar successor, which is what the
ordinal arithmetic of `datetime.date.__add__` computes on every
representable date whose successor is also representable. -/
def PyDate.nextDay (d : PyDate) : PyDate :=
  if d.day < daysInMonth d.year d.month then ⟨d.year, d.month, d.day + 1⟩
  else if d.month < 12 then ⟨d.year, d.month + 1, 1⟩
  else ⟨d.year + 1, 1, 1⟩

/-- Zero-pad a decimal rendering on the left to a given width. -/
def padNum (w n : Nat) : List Char :=
  List.replicate (w - (natToDigits n).length) '0' ++ natToDigits n

/-- `date.isoformat()`: `YYYY-MM-DD` with zero-padded fields
(`%04d-%02d-%02d`). -/
def PyDate.isoformat (d : PyDate) : String :=
  String.mk (padNum 4 d.year ++ '-' :: (padNum 2 d.month ++ '-' :: padNum 2 d.day))

/-- The shape `YYYY-MM-DD`: four decimal digits, a dash, two decimal
digits, a dash, two decimal digits. -/
def isYYYYMMDD (s : String) : Prop :=
  ∃ ys ms ds, s.data = ys ++ '-' :: (ms ++ '-' :: ds) ∧
    ys.length = 4 ∧ ms.length = 2 ∧ ds.length = 2 ∧
    (∀ c ∈ ys ++ ms ++ ds, '0' ≤ c ∧ c ≤ '9')

/-- The login endpoint from `toggl_client.py`. -/
def AUTH_ENDPOINT : String := "https://accounts.toggl.com/api/sessions"

/-- The time-entries endpoint from `toggl_client.py`. -/
def TIME_ENTRIES_ENDPOINT : String := "https://api.track.toggl.com/api/v9/me/time_entries"

/-- The projects endpoint from `toggl_client.py`, parameterised by the
workspace id interpolated into it. -/
def PROJECTS_ENDPOINT (workspace_id : String) : String :=
  "https://api.track.toggl.com/api/v9/workspaces/" ++ workspace_id ++ "/projects"

/-- One outbound GET request: target URL and query parameters. -/
structure Request where
  url : String
  params : List (String × String)
deriving DecidableEq

/-- `requests.Response.raise_for_status` raises exactly for client-error
and server-error status codes. -/
def raise_for_status_fails (status : Nat) : Bool :=
  400 ≤ status && status < 600

/-- Errors that can escape `get_time_entries`: a non-success HTTP status
(`requests.HTTPError`) or a missing required field in a raw record
(Python `KeyError`, carrying the key). -/
inductive FetchError where
  | httpStatus (code : Nat)
  | keyError (k : String)
deriving DecidableEq

/-- Python dict lookup on the association-list model (`entry[k]` when
`some`, `KeyError` when `none`). -/
def jget? (o : JObj) (k : String) : Option JVal :=
  match o with
  | [] => none
  | kv :: rest => if kv.1 = k then some kv.2 else jget? rest k

/-- `entry[k]`: the value, or a `KeyError` carrying the key. -/
def required_field (o : JObj) (k : String) : Except String JVal :=
  match jget? o k with
  | some v => Except.ok v
  | none => Except.error k

/-- The dict literal built for each raw record inside
`get_time_entries`, in the evaluation order of the source: `entry["id"]`,
`entry.get("project_id")` (defaulting to `None`), `entry["description"]`,
`entry["start"]`, `entry["stop"]`, `entry["duration"]`. -/
def normalize_entry (entry : JObj) : Except String JObj := do
  let i ← required_field entry "id"
  let pid := (jget? entry "project_id").getD JVal.jnull
  let desc ← required_field entry "description"
  let st ← required_field entry "start"
  let sp ← required_field entry "stop"
  let du ← required_field entry "duration"
  pure [("id", i), ("project_id", pid), ("description", desc),
        ("start", st), ("stop", sp), ("duration", du)]

/-- The list comprehension of `get_time_entries`: records normalized in
order, the first `KeyError` aborting the whole call. -/
def normalize_entries : List JObj → Except String (List JObj)
  | [] => Except.ok []
  | e :: es => do
    let n ← normalize_entry e
    let ns ← normalize_entries es
    pure (n :: ns)

/-- The single GET request `get_time_entries` issues for date `d`. -/
def time_entries_request (d : PyDate) : Request :=
  ⟨TIME_ENTRIES_ENDPOINT,
   [("start_date", d.isoformat), ("end_date", d.nextDay.isoformat)]⟩

/-- `TogglClient.get_time_entries`: issues one GET for the half-open
range from `d` to `d.nextDay`, raises on a non-success status, then
normalizes each raw record.  The response the service would return is
passed in as `status`/`body`; the first component of the result is the
list of requests issued. -/
def get_time_entries (status : Nat) (body : List JObj) (d : PyDate) :
    List Request × Except FetchError (List JObj) :=
  ([time_entries_request d],
   if raise_for_status_fails status then Except.error (FetchError.httpStatus status)
   else match normalize_entries body with
     | Except.ok es => Except.ok es
     | Except.error k => Except.error (FetchError.keyError k))

/-- `TogglClient.get_project_map`: one GET against the projects
endpoint, raising on non-success, then the dict comprehension mapping
each raw project record to its id/name pair. -/
def get_project_map (workspace_id : String) (status : Nat) (body : List JObj) :
    List Request × Except FetchError (List (JVal × JVal)) :=
  ([⟨PROJECTS_ENDPOINT workspace_id, []⟩],
   if raise_for_status_fails status then Except.error (FetchError.httpStatus status)
   else
    let pick : JObj → Except String (JVal × JVal) := fun p => do
      let i ← required_field p "id"
      let n ← required_field p "name"
      pure (i, n)
    match body.mapM pick with
    | Except.ok m => Except.ok m
    | Except.error k => Except.error (FetchError.keyError k))

/-- The behaviour of the external Toggl service during one invocation:
status code answered to the login POST, and status plus JSON body
answered to the time-entries GET. -/
structure TogglApi where
  login_status : Nat
  entries_status : Nat
  entries_body : List JObj
deriving DecidableEq

/-- One `put_object` call: the keyword arguments `lambda_handler`
passes to the S3 client. -/
structure PutObjectCall where
  Bucket : String
  Key : String
  Body : List Char
  ContentType : String
deriving DecidableEq

/-- Observable events of one invocation, in order: the `requests.Session`
being created and closed, outbound HTTP calls, and the S3 upload. -/
inductive Event where
  | sessionOpen
  | httpPost (url : String)
  | httpGet (r : Request)
  | sessionClose
  | putObject (call : PutObjectCall)
deriving DecidableEq

/-- Errors that can escape `lambda_handler`; none are caught in the
source, so the handler result is an `Except`. -/
inductive HandlerError where
  | authError (status : Nat)
  | fetchError (e : FetchError)
  | storageError
deriving DecidableEq

/-- The dict `lambda_handler` returns on success: `statusCode` and the
JSON-encoded `body` text. -/
structure HandlerResult where
  statusCode : Nat
  body : List Char
deriving DecidableEq

/-- The S3 object key `lambda_handler` computes for a date. -/
def s3_key_for (d : PyDate) : String :=
  d.isoformat ++ "/time_entries.jsonl"

/-- `lambda_handler` from `app.py`, as a trace semantics.  Mirrors the
source line by line: `TogglClient.__init__` creates the session and
performs the login POST, raising on a non-success status — note that this
happens in the expression evaluated before the `with` statement binds the
context manager, so a login failure escapes without `__exit__` running;
inside the `with` block the entries are fetched, and `__exit__` closes
the session both on normal completion and on an exception from the
fetch; then the body is serialised, the key computed, `put_object`
called, and the result dict returned.  `s3_ok` is whether the S3
`put_object` call succeeds (boto3 raises otherwise). -/
def lambda_handler (api : TogglApi) (s3_ok : Bool) (bucket : String) (today : PyDate) :
    List Event × Except HandlerError HandlerResult :=
  let openEvents := [Event.sessionOpen, Event.httpPost AUTH_ENDPOINT]
  if raise_for_status_fails api.login_status then
    (openEvents, Except.error (HandlerError.authError api.login_status))
  else
    let fetch := get_time_entries api.entries_status api.entries_body today
    let fetchEvents := openEvents ++ fetch.1.map Event.httpGet
    match fetch.2 with
    | Except.error e =>
      (fetchEvents ++ [Event.sessionClose], Except.error (HandlerError.fetchError e))
    | Except.ok entries =>
      let jsonl_body := serialise_entries_to_jsonl entries
      let key := s3_key_for today
      let put : PutObjectCall := ⟨bucket, key, jsonl_body, "application/jsonl"⟩
      let events := fetchEvents ++ [Event.sessionClose, Event.putObject put]
      if s3_ok then
        (events,
         Except.ok ⟨200, json_dumps
           [("entries_uploaded", JVal.jint entries.length),
            ("s3_key", JVal.jstr key)]⟩)
      else
        (events, Except.error HandlerError.storageError)

/-- The `put_object` calls appearing in an event trace. -/
def putCallsOf (events : List Event) : List PutObjectCall :=
  events.filterMap fun e =>
    match e with
    | Event.putObject c => some c
    | _ => none

/-- The five fields `get_time_entries` reads with a raising lookup. -/
def requiredKeys : List String := ["id", "description", "start", "stop", "duration"]

/-- A raw record carrying every required field. -/
def wellFormedRaw (r : JObj) : Prop :=
  ∀ k ∈ requiredKeys, (jget? r k).isSome

instance (r : JObj) : Decidable (wellFormedRaw r) := by
  unfold wellFormedRaw; infer_instance

/-- The normalized record `get_time_entries` builds from a raw record
that carries every required field. -/
def normalized_form (r : JObj) : JObj :=
  [("id", (jget? r "id").getD JVal.jnull),
   ("project_id", (jget? r "project_id").getD JVal.jnull),
   ("description", (jget? r "description").getD JVal.jnull),
   ("start", (jget? r "start").getD JVal.jnull),
   ("stop", (jget? r "stop").getD JVal.jnull),
   ("duration", (jget? r "duration").getD JVal.jnull)]

deriving instance DecidableEq for Except

/-! ### Decimal digit strings -/

theorem natToDigitsAux_succ (fuel n : Nat) :
    natToDigitsAux (fuel + 1) n =
      if n < 10 then [Nat.digitChar n]
      else natToDigitsAux fuel (n / 10) ++ [Nat.digitChar (n % 10)] := rfl

theorem natToDigitsAux_congr (f1 : Nat) : ∀ f2 n, n < f1 → n < f2 →
    natToDigitsAux f1 n = natToDigitsAux f2 n := by
  induction f1 with
  | zero => intro f2 n h _; omega
  | succ f ih =>
    intro f2 n h1 h2
    cases f2 with
    | zero => omega
    | succ g =>
      rw [natToDigitsAux_succ, natToDigitsAux_succ]
      by_cases h10 : n < 10
      · simp [h10]
      · have hdiv : n / 10 < n := Nat.div_lt_self (by omega) (by norm_num)
        rw [if_neg h10, if_neg h10, ih g (n / 10) (by omega) (by omega)]

theorem natToDigits_eq (n : Nat) :
    natToDigits n = if n < 10 then [Nat.digitChar n]
      else natToDigits (n / 10) ++ [Nat.digitChar (n % 10)] := by
  show natToDigitsAux (n + 1) n = _
  rw [natToDigitsAux_succ]
  by_cases h : n < 10
  · rw [if_pos h, if_pos h]
  · have hdiv : n / 10 < n := Nat.div_lt_self (by omega) (by norm_num)
    rw [if_neg h, if_neg h,
      natToDigitsAux_congr n (n / 10 + 1) (n / 10) hdiv (by omega)]
    rfl

theorem natToDigits_ne_nil (n : Nat) : natToDigits n ≠ [] := by
  rw [natToDigits_eq]
  by_cases h : n < 10 <;> simp [h]

theorem digitChar_isDigit (k : Nat) (h : k < 10) : (Nat.digitChar k).isDigit = true := by
  interval_cases k <;> decide

theorem digitChar_toNat (k : Nat) (h : k < 10) : (Nat.digitChar k).toNat = 48 + k := by
  interval_cases k <;> decide

theorem natToDigits_isDigit (n : Nat) : ∀ c ∈ natToDigits n, c.isDigit = true := by
  induction n using Nat.strong_induction_on with
  | _ n ih =>
    rw [natToDigits_eq]
    by_cases h : n < 10
    · simpa [h] using digitChar_isDigit n h
    · have hdiv : n / 10 < n := Nat.div_lt_self (by omega) (by norm_num)
      simp only [if_neg h, List.mem_append, List.mem_singleton]
      rintro c (hc | rfl)
      · exact ih (n / 10) hdiv c hc
      · exact digitChar_isDigit (n % 10) (Nat.mod_lt _ (by norm_num))

theorem natToDigits_length_le (n : Nat) : ∀ k, 1 ≤ k → n < 10 ^ k →
    (natToDigits n).length ≤ k := by
  induction n using Nat.strong_induction_on with
  | _ n ih =>
    intro k hk hn
    rw [natToDigits_eq]
    by_cases h : n < 10
    · simp [h]; omega
    · have hdiv : n / 10 < n := Nat.div_lt_self (by omega) (by norm_num)
      have hk2 : 2 ≤ k := by
        rcases Nat.lt_or_ge k 2 with hlt | hge
        · have hk1 : k = 1 := by omega
          subst hk1
          simp [pow_one] at hn
          omega
        · exact hge
      have hbound : n / 10 < 10 ^ (k - 1) := by
        have hp : (10 : Nat) ^ k = 10 ^ (k - 1) * 10 := by
          rw [← pow_succ]
          congr 1
          omega
        exact Nat.div_lt_of_lt_mul (by omega)
      have := ih (n / 10) hdiv (k - 1) (by omega) hbound
      simp only [if_neg h, List.length_append, List.length_cons, List.length_nil]
      omega

theorem digitsToNat_append (xs : List Char) (c : Char) :
    digitsToNat (xs ++ [c]) = digitsToNat xs * 10 + (c.toNat - 48) := by
  simp [digitsToNat, List.foldl_append]

theorem digitsToNat_natToDigits (n : Nat) : digitsToNat (natToDigits n) = n := by
  induction n using Nat.strong_induction_on with
  | _ n ih =>
    rw [natToDigits_eq]
    by_cases h : n < 10
    · simp [h, digitsToNat, digitChar_toNat n h]
    · have hdiv : n / 10 < n := Nat.div_lt_self (by omega) (by norm_num)
      rw [if_neg h, digitsToNat_append, ih (n / 10) hdiv,
        digitChar_toNat (n % 10) (Nat.mod_lt _ (by norm_num))]
      omega

/-! ### No encoded line contains a raw newline -/

theorem noNL_append {a b : List Char} (ha : '\n' ∉ a) (hb : '\n' ∉ b) :
    '\n' ∉ a ++ b := by
  simp only [List.mem_append]
  rintro (h | h)
  · exact ha h
  · exact hb h

theorem noNL_cons {c : Char} {l : List Char} (hc : c ≠ '\n') (hl : '\n' ∉ l) :
    '\n' ∉ c :: l := by
  simp only [List.mem_cons]
  rintro (h | h)
  · exact hc h.symm
  · exact hl h

theorem digitChar16_ne_nl (k : Nat) (h : k < 16) : Nat.digitChar k ≠ '\n' := by
  interval_cases k <;> decide

theorem isDigit_ne_nl {c : Char} (h : c.isDigit = true) : c ≠ '\n' := by
  rintro rfl
  exact absurd h (by decide)

theorem hex4_no_nl (m : Nat) : '\n' ∉ hex4 m := by
  refine noNL_cons ?_ (noNL_cons ?_ (noNL_cons ?_ (noNL_cons ?_ (by decide)))) <;>
    exact digitChar16_ne_nl _ (Nat.mod_lt _ (by norm_num))

theorem natToDigits_no_nl (n : Nat) : '\n' ∉ natToDigits n := by
  intro hmem
  exact isDigit_ne_nl (natToDigits_isDigit n _ hmem) rfl

theorem escapeChar_no_nl (c : Char) : '\n' ∉ escapeChar c := by
  unfold escapeChar
  split_ifs with h1 h2 h3 h4 h5 h6 h7 h8 h9
  · decide
  · decide
  · decide
  · decide
  · decide
  · decide
  · decide
  · exact noNL_cons (by decide) (noNL_cons (by decide) (hex4_no_nl _))
  · exact noNL_append (noNL_cons (by decide) (noNL_cons (by decide) (hex4_no_nl _)))
      (noNL_cons (by decide) (noNL_cons (by decide) (hex4_no_nl _)))
  · exact noNL_cons (fun hc => h5 hc) (by decide)

theorem escapeList_no_nl (s : List Char) : '\n' ∉ escapeList s := by
  induction s with
  | nil => decide
  | cons c cs ih => exact noNL_append (escapeChar_no_nl c) ih

theorem intToDigits_no_nl (i : Int) : '\n' ∉ intToDigits i := by
  unfold intToDigits
  split_ifs
  · exact noNL_cons (by decide) (natToDigits_no_nl _)
  · exact natToDigits_no_nl _

theorem encodeJVal_no_nl (v : JVal) : '\n' ∉ encodeJVal v := by
  cases v with
  | jnull => decide
  | jbool b => cases b <;> decide
  | jint n => exact intToDigits_no_nl n
  | jstr s =>
    exact noNL_cons (by decide) (noNL_append (escapeList_no_nl _) (by decide))

theorem encodeField_no_nl (kv : String × JVal) : '\n' ∉ encodeField kv :=
  noNL_cons (by decide) (noNL_append (escapeList_no_nl _)
    (noNL_cons (by decide) (noNL_cons (by decide) (noNL_cons (by decide)
      (encodeJVal_no_nl _)))))

theorem encodeFields_no_nl (o : List (String × JVal)) : '\n' ∉ encodeFields o := by
  induction o with
  | nil => decide
  | cons kv tl ih =>
    cases tl with
    | nil => exact encodeField_no_nl kv
    | cons kv2 tl2 =>
      show '\n' ∉ encodeField kv ++ ',' :: ' ' :: encodeFields (kv2 :: tl2)
      exact noNL_append (encodeField_no_nl kv)
        (noNL_cons (by decide) (noNL_cons (by decide) ih))

theorem json_dumps_no_nl (o : JObj) : '\n' ∉ json_dumps o :=
  noNL_cons (by decide) (noNL_append (encodeFields_no_nl o) (by decide))

/-! ### Splitting on newlines inverts joining -/

theorem splitNL_cons (c : Char) (rest : List Char) :
    splitNL (c :: rest) = if c = '\n' then [] :: splitNL rest
      else match splitNL rest with
        | [] => [[c]]
        | p :: ps => (c :: p) :: ps := rfl

theorem splitNL_of_no_nl {l : List Char} (h : '\n' ∉ l) : splitNL l = [l] := by
  induction l with
  | nil => rfl
  | cons c rest ih =>
    simp only [List.mem_cons, not_or] at h
    rw [splitNL_cons, if_neg (Ne.symm h.1), ih h.2]

theorem splitNL_append {l : List Char} (h : '\n' ∉ l) (r : List Char) :
    splitNL (l ++ '\n' :: r) = l :: splitNL r := by
  induction l with
  | nil =>
    show splitNL ('\n' :: r) = [] :: splitNL r
    rw [splitNL_cons, if_pos rfl]
  | cons c rest ih =>
    simp only [List.mem_cons, not_or] at h
    rw [List.cons_append, splitNL_cons, if_neg (Ne.symm h.1), ih h.2]

theorem splitNL_joinNewline : ∀ ls : List (List Char), ls ≠ [] →
    (∀ l ∈ ls, '\n' ∉ l) → splitNL (joinNewline ls) = ls := by
  intro ls
  induction ls with
  | nil => intro h; exact absurd rfl h
  | cons l tl ih =>
    intro _ hall
    cases tl with
    | nil => exact splitNL_of_no_nl (hall l (by simp))
    | cons l2 tl2 =>
      show splitNL (l ++ '\n' :: joinNewline (l2 :: tl2)) = _
      rw [splitNL_append (hall l (by simp)),
        ih (by simp) (fun x hx => hall x (List.mem_cons_of_mem _ hx))]

theorem joinNewline_append : ∀ (as bs : List (List Char)), as ≠ [] → bs ≠ [] →
    joinNewline (as ++ bs) = joinNewline as ++ '\n' :: joinNewline bs := by
  intro as
  induction as with
  | nil => intro bs h; exact absurd rfl h
  | cons a tl ih =>
    intro bs _ hbs
    cases tl with
    | nil =>
      obtain ⟨b, bs2, rfl⟩ := List.exists_cons_of_ne_nil hbs
      rfl
    | cons a2 tl2 =>
      have hcons : (a2 :: tl2) ++ bs = a2 :: (tl2 ++ bs) := rfl
      show joinNewline (a :: ((a2 :: tl2) ++ bs)) = _
      rw [hcons]
      show a ++ '\n' :: joinNewline (a2 :: (tl2 ++ bs)) = _
      rw [← hcons, ih bs (by simp) hbs]
      show _ = (a ++ '\n' :: joinNewline (a2 :: tl2)) ++ '\n' :: joinNewline bs
      simp [List.append_assoc]

/-- Claim C10: `serialise_entries_to_jsonl` is a homomorphism from list
concatenation to newline concatenation on non-empty lists, and the empty
list is a two-sided identity for it. -/
theorem serialise_entries_to_jsonl_hom (xs ys : List JObj)
    (hx : xs ≠ []) (hy : ys ≠ []) :
    serialise_entries_to_jsonl (xs ++ ys) =
      serialise_entries_to_jsonl xs ++ '\n' :: serialise_entries_to_jsonl ys ∧
    serialise_entries_to_jsonl (xs ++ []) = serialise_entries_to_jsonl xs ∧
    serialise_entries_to_jsonl ([] ++ ys) = serialise_entries_to_jsonl ys := by
  refine ⟨?_, by simp, by simp⟩
  obtain ⟨x, xs2, rfl⟩ := List.exists_cons_of_ne_nil hx
  obtain ⟨y, ys2, rfl⟩ := List.exists_cons_of_ne_nil hy
  show joinNewline (((x :: xs2) ++ y :: ys2).map json_dumps) = _
  rw [List.map_append, joinNewline_append _ _ (by simp) (by simp)]
  rfl

/-- Witness for C10 at two concrete singleton lists. -/
theorem serialise_entries_to_jsonl_hom_witness :
    ([[("a", JVal.jint 1)]] : List JObj) ≠ [] ∧
    ([[("b", JVal.jint 2)]] : List JObj) ≠ [] ∧
    serialise_entries_to_jsonl ([[("a", JVal.jint 1)]] ++ [[("b", JVal.jint 2)]]) =
      serialise_entries_to_jsonl [[("a", JVal.jint 1)]] ++
        '\n' :: serialise_entries_to_jsonl [[("b", JVal.jint 2)]] :=
  ⟨by decide, by decide,
   (serialise_entries_to_jsonl_hom _ _ (by decide) (by decide)).1⟩

/-! ### The decoder is a left inverse of the encoder -/

theorem string_mk_data (s : String) : String.mk s.data = s := rfl

theorem hexVal_digitChar : ∀ k, k < 16 → hexVal? (Nat.digitChar k) = some k := by decide

theorem parseHex4_hex4 (n : Nat) (h : n < 65536) (rest : List Char) :
    parseHex4 (hex4 n ++ rest) = some (n, rest) := by
  have e1 := hexVal_digitChar (n / 4096 % 16) (Nat.mod_lt _ (by norm_num))
  have e2 := hexVal_digitChar (n / 256 % 16) (Nat.mod_lt _ (by norm_num))
  have e3 := hexVal_digitChar (n / 16 % 16) (Nat.mod_lt _ (by norm_num))
  have e4 := hexVal_digitChar (n % 16) (Nat.mod_lt _ (by norm_num))
  show parseHex4 (Nat.digitChar (n / 4096 % 16) :: Nat.digitChar (n / 256 % 16) ::
    Nat.digitChar (n / 16 % 16) :: Nat.digitChar (n % 16) :: rest) = _
  simp only [parseHex4, e1, e2, e3, e4]
  have harith : 4096 * (n / 4096 % 16) + 256 * (n / 256 % 16) + 16 * (n / 16 % 16) + n % 16 = n := by
    omega
  rw [harith]

theorem parseStrAux_esc_quote (tail : List Char) (fuel : Nat) :
    parseStrAux (fuel + 1) ('\\' :: '"' :: tail) = withFst '"' (parseStrAux fuel tail) := by
  simp [parseStrAux]

theorem parseStrAux_esc_backslash (tail : List Char) (fuel : Nat) :
    parseStrAux (fuel + 1) ('\\' :: '\\' :: tail) = withFst '\\' (parseStrAux fuel tail) := by
  simp [parseStrAux]

theorem parseStrAux_esc_b (tail : List Char) (fuel : Nat) :
    parseStrAux (fuel + 1) ('\\' :: 'b' :: tail) = withFst '\x08' (parseStrAux fuel tail) := by
  simp [parseStrAux]

theorem parseStrAux_esc_f (tail : List Char) (fuel : Nat) :
    parseStrAux (fuel + 1) ('\\' :: 'f' :: tail) = withFst '\x0c' (parseStrAux fuel tail) := by
  simp [parseStrAux]

theorem parseStrAux_esc_n (tail : List Char) (fuel : Nat) :
    parseStrAux (fuel + 1) ('\\' :: 'n' :: tail) = withFst '\n' (parseStrAux fuel tail) := by
  simp [parseStrAux]

theorem parseStrAux_esc_r (tail : List Char) (fuel : Nat) :
    parseStrAux (fuel + 1) ('\\' :: 'r' :: tail) = withFst '\x0d' (parseStrAux fuel tail) := by
  simp [parseStrAux]

theorem parseStrAux_esc_t (tail : List Char) (fuel : Nat) :
    parseStrAux (fuel + 1) ('\\' :: 't' :: tail) = withFst '\t' (parseStrAux fuel tail) := by
  simp [parseStrAux]

theorem parseStrAux_esc_bmp (c : Char) (tail : List Char) (fuel : Nat)
    (h8 : c.toNat < 0x20 ∨ (0x7f ≤ c.toNat ∧ c.toNat < 0x10000)) :
    parseStrAux (fuel + 1) (('\\' :: 'u' :: hex4 c.toNat) ++ tail) =
      withFst c (parseStrAux fuel tail) := by
  have hv : Nat.isValidChar c.toNat := c.valid
  have hlt : c.toNat < 65536 := by
    rcases h8 with h | h
    · omega
    · exact h.2
  have hns : c.toNat < 0xd800 ∨ 0xdfff < c.toNat := by
    rcases hv with h | h
    · exact Or.inl h
    · exact Or.inr h.1
  have hx := parseHex4_hex4 c.toNat hlt tail
  have hsur1 : ¬(0xd800 ≤ c.toNat ∧ c.toNat < 0xdc00) := by omega
  have hsur2 : ¬(0xdc00 ≤ c.toNat ∧ c.toNat < 0xe000) := by omega
  simp only [List.cons_append]
  simp [parseStrAux, hx, hsur1, hsur2, Char.ofNat_toNat]

theorem parseStrAux_esc_astral (c : Char) (tail : List Char) (fuel : Nat)
    (h9 : 0x10000 ≤ c.toNat) :
    parseStrAux (fuel + 1)
      ((('\\' :: 'u' :: hex4 (0xd800 + (c.toNat - 0x10000) / 0x400)) ++
        ('\\' :: 'u' :: hex4 (0xdc00 + (c.toNat - 0x10000) % 0x400))) ++ tail) =
      withFst c (parseStrAux fuel tail) := by
  have hv : Nat.isValidChar c.toNat := c.valid
  have hmax : c.toNat < 0x110000 := by
    rcases hv with h | h
    · omega
    · exact h.2
  have hmod := Nat.mod_lt (c.toNat - 0x10000) (show 0 < 0x400 by norm_num)
  have hdivlt : (c.toNat - 0x10000) / 0x400 < 0x400 := by omega
  obtain ⟨hi, hhi⟩ : ∃ hi, 0xd800 + (c.toNat - 0x10000) / 0x400 = hi := ⟨_, rfl⟩
  obtain ⟨lo, hlo⟩ : ∃ lo, 0xdc00 + (c.toNat - 0x10000) % 0x400 = lo := ⟨_, rfl⟩
  have hc1 : 0xd800 ≤ hi ∧ hi < 0xdc00 := by omega
  have hc2 : 0xdc00 ≤ lo ∧ lo < 0xe000 := by omega
  have hcomb : 0x10000 + (hi - 0xd800) * 0x400 + (lo - 0xdc00) = c.toNat := by
    have h1 : hi - 0xd800 = (c.toNat - 0x10000) / 0x400 := by omega
    have h2 : lo - 0xdc00 = (c.toNat - 0x10000) % 0x400 := by omega
    rw [h1, h2]
    omega
  rw [hhi, hlo]
  have hx1 := parseHex4_hex4 hi (by omega) ('\\' :: 'u' :: (hex4 lo ++ tail))
  have hx2 := parseHex4_hex4 lo (by omega) tail
  simp only [List.cons_append, List.append_assoc]
  simp [parseStrAux, hx1, hx2, hc1, hc2, hcomb, Char.ofNat_toNat]

theorem parseStrAux_plain (c : Char) (tail : List Char) (fuel : Nat)
    (h1 : ¬c = '"') (h2 : ¬c = '\\') :
    parseStrAux (fuel + 1) (c :: tail) = withFst c (parseStrAux fuel tail) := by
  simp only [parseStrAux]
  rw [if_neg h1, if_neg h2]

theorem parseStrAux_escapeChar (c : Char) (tail : List Char) (fuel : Nat) :
    parseStrAux (fuel + 1) (escapeChar c ++ tail) = withFst c (parseStrAux fuel tail) := by
  unfold escapeChar
  split_ifs with h1 h2 h3 h4 h5 h6 h7 h8 h9
  · subst h1; exact parseStrAux_esc_quote tail fuel
  · subst h2; exact parseStrAux_esc_backslash tail fuel
  · subst h3; exact parseStrAux_esc_b tail fuel
  · subst h4; exact parseStrAux_esc_f tail fuel
  · subst h5; exact parseStrAux_esc_n tail fuel
  · subst h6; exact parseStrAux_esc_r tail fuel
  · subst h7; exact parseStrAux_esc_t tail fuel
  · exact parseStrAux_esc_bmp c tail fuel h8
  · exact parseStrAux_esc_astral c tail fuel h9
  · exact parseStrAux_plain c tail fuel h1 h2

theorem parseStrAux_escapeList (s : List Char) : ∀ fuel rest, s.length < fuel →
    parseStrAux fuel (escapeList s ++ '"' :: rest) = some (s, rest) := by
  induction s with
  | nil =>
    intro fuel rest h
    cases fuel with
    | zero => omega
    | succ f =>
      show parseStrAux (f + 1) ('"' :: rest) = _
      simp [parseStrAux]
  | cons c cs ih =>
    intro fuel rest h
    cases fuel with
    | zero => omega
    | succ f =>
      show parseStrAux (f + 1) ((escapeChar c ++ escapeList cs) ++ '"' :: rest) = _
      rw [List.append_assoc, parseStrAux_escapeChar c _ f,
        ih f rest (by simpa using Nat.lt_of_succ_lt_succ h)]
      rfl

theorem digitChar_bounds (k : Nat) (h : k < 10) :
    '0' ≤ Nat.digitChar k ∧ Nat.digitChar k ≤ '9' := by
  interval_cases k <;> exact ⟨by decide, by decide⟩

theorem natToDigits_bounds (n : Nat) : ∀ c ∈ natToDigits n, '0' ≤ c ∧ c ≤ '9' := by
  induction n using Nat.strong_induction_on with
  | _ n ih =>
    rw [natToDigits_eq]
    by_cases h : n < 10
    · simpa [h] using digitChar_bounds n h
    · have hdiv : n / 10 < n := Nat.div_lt_self (by omega) (by norm_num)
      simp only [if_neg h, List.mem_append, List.mem_singleton]
      rintro c (hc | rfl)
      · exact ih (n / 10) hdiv c hc
      · exact digitChar_bounds (n % 10) (Nat.mod_lt _ (by norm_num))

theorem spanDigits_cons (c : Char) (cs : List Char) :
    spanDigits (c :: cs) = if '0' ≤ c ∧ c ≤ '9'
      then (c :: (spanDigits cs).1, (spanDigits cs).2)
      else ([], c :: cs) := rfl

theorem spanDigits_append (ds : List Char) : ∀ rest,
    (∀ c ∈ ds, '0' ≤ c ∧ c ≤ '9') →
    (∀ c, rest.head? = some c → ¬('0' ≤ c ∧ c ≤ '9')) →
    spanDigits (ds ++ rest) = (ds, rest) := by
  induction ds with
  | nil =>
    intro rest _ hrest
    cases rest with
    | nil => rfl
    | cons c cs =>
      show spanDigits (c :: cs) = ([], c :: cs)
      rw [spanDigits_cons, if_neg (hrest c rfl)]
  | cons d ds2 ih =>
    intro rest hds hrest
    rw [List.cons_append, spanDigits_cons, if_pos (hds d (by simp)),
      ih rest (fun c hc => hds c (by simp [hc])) hrest]

theorem parseIntVal_cons (c : Char) (l : List Char) :
    parseIntVal (c :: l) = if c = '-' then
      (match spanDigits l with
       | ([], _) => none
       | (ds, r) => some (-(digitsToNat ds : Int), r))
    else
      (match spanDigits (c :: l) with
       | ([], _) => none
       | (ds, r) => some ((digitsToNat ds : Int), r)) := rfl

theorem intToDigits_head (i : Int) : ∃ c0 l0, intToDigits i = c0 :: l0 ∧
    (c0 = '-' ∨ ('0' ≤ c0 ∧ c0 ≤ '9')) := by
  unfold intToDigits
  split_ifs with h
  · exact ⟨'-', natToDigits i.natAbs, rfl, Or.inl rfl⟩
  · obtain ⟨d, ds, hds⟩ := List.exists_cons_of_ne_nil (natToDigits_ne_nil i.natAbs)
    refine ⟨d, ds, hds, Or.inr (natToDigits_bounds i.natAbs d ?_)⟩
    rw [hds]
    exact List.mem_cons_self d ds

theorem parseIntVal_intToDigits (i : Int) (rest : List Char)
    (hrest : ∀ c, rest.head? = some c → ¬('0' ≤ c ∧ c ≤ '9')) :
    parseIntVal (intToDigits i ++ rest) = some (i, rest) := by
  obtain ⟨d, ds, hds⟩ := List.exists_cons_of_ne_nil (natToDigits_ne_nil i.natAbs)
  have hbounds := natToDigits_bounds i.natAbs
  have hspan : spanDigits (natToDigits i.natAbs ++ rest) = (natToDigits i.natAbs, rest) :=
    spanDigits_append _ rest hbounds hrest
  have hval : digitsToNat (natToDigits i.natAbs) = i.natAbs := digitsToNat_natToDigits _
  unfold intToDigits
  split_ifs with hneg
  · rw [List.cons_append, parseIntVal_cons, if_pos rfl, hspan, hds]
    show some (-(digitsToNat (d :: ds) : Int), rest) = some (i, rest)
    rw [← hds, hval]
    have habs : -(i.natAbs : Int) = i := by omega
    rw [habs]
  · have hd : ¬d = '-' := by
      have hb := hbounds d (by rw [hds]; exact List.mem_cons_self d ds)
      intro hdeq
      subst hdeq
      exact absurd hb (by decide)
    rw [hds, List.cons_append, parseIntVal_cons, if_neg hd, ← List.cons_append, ← hds,
      hspan, hds]
    show some ((digitsToNat (d :: ds) : Int), rest) = some (i, rest)
    rw [← hds, hval]
    have habs : ((i.natAbs : Int)) = i := by omega
    rw [habs]

theorem parseJVal_not_literal (fuel : Nat) (c0 : Char) (l : List Char)
    (h1 : c0 ≠ 'n') (h2 : c0 ≠ 't') (h3 : c0 ≠ 'f') (h4 : c0 ≠ '"') :
    parseJVal fuel (c0 :: l) =
      (parseIntVal (c0 :: l)).map (fun p => (JVal.jint p.1, p.2)) := by
  simp only [parseJVal]
  split
  · rename_i heq
    simp only [List.cons.injEq] at heq
    exact absurd heq.1 h1
  · rename_i heq
    simp only [List.cons.injEq] at heq
    exact absurd heq.1 h2
  · rename_i heq
    simp only [List.cons.injEq] at heq
    exact absurd heq.1 h3
  · rename_i heq
    simp only [List.cons.injEq] at heq
    exact absurd heq.1 h4
  · rfl

theorem escapeChar_length_pos (c : Char) : 1 ≤ (escapeChar c).length := by
  unfold escapeChar
  split_ifs <;> simp [hex4]

theorem escapeList_length_ge (s : List Char) : s.length ≤ (escapeList s).length := by
  induction s with
  | nil => simp [escapeList]
  | cons c cs ih =>
    have := escapeChar_length_pos c
    simp only [escapeList, List.length_append, List.length_cons]
    omega

theorem encodeJVal_length_pos (v : JVal) : 1 ≤ (encodeJVal v).length := by
  cases v with
  | jnull => decide
  | jbool b => cases b <;> decide
  | jint n =>
    show 1 ≤ (intToDigits n).length
    obtain ⟨d, ds, hds⟩ := List.exists_cons_of_ne_nil (natToDigits_ne_nil n.natAbs)
    unfold intToDigits
    split_ifs <;> simp [hds]
  | jstr s => simp [encodeJVal]

theorem parseJVal_encode (v : JVal) (fuel : Nat) (rest : List Char)
    (hfuel : (encodeJVal v).length ≤ fuel)
    (hrest : ∀ c, rest.head? = some c → ¬('0' ≤ c ∧ c ≤ '9')) :
    parseJVal fuel (encodeJVal v ++ rest) = some (v, rest) := by
  cases v with
  | jnull => rfl
  | jbool b => cases b <;> rfl
  | jstr s =>
    have hlen : s.data.length < fuel := by
      have h1 := escapeList_length_ge s.data
      simp only [encodeJVal, List.length_cons, List.length_append] at hfuel
      simp at hfuel
      omega
    have hX : encodeJVal (JVal.jstr s) ++ rest =
        '"' :: (escapeList s.data ++ '"' :: rest) := by
      simp [encodeJVal]
    rw [hX]
    show (parseStrAux fuel (escapeList s.data ++ '"' :: rest)).map
      (fun p => (JVal.jstr (String.mk p.1), p.2)) = _
    rw [parseStrAux_escapeList s.data fuel rest hlen]
    simp [string_mk_data]
  | jint n =>
    obtain ⟨c0, l0, hshape, hc0⟩ := intToDigits_head n
    have hnotlit : c0 ≠ 'n' ∧ c0 ≠ 't' ∧ c0 ≠ 'f' ∧ c0 ≠ '"' := by
      rcases hc0 with rfl | hb
      · exact ⟨by decide, by decide, by decide, by decide⟩
      · refine ⟨?_, ?_, ?_, ?_⟩ <;> (rintro rfl; exact absurd hb (by decide))
    show parseJVal fuel (intToDigits n ++ rest) = _
    rw [hshape, List.cons_append,
      parseJVal_not_literal fuel c0 (l0 ++ rest) hnotlit.1 hnotlit.2.1 hnotlit.2.2.1
        hnotlit.2.2.2,
      ← List.cons_append, ← hshape, parseIntVal_intToDigits n rest hrest]
    rfl

theorem encodeField_length_ge (kv : String × JVal) :
    kv.1.data.length + 5 ≤ (encodeField kv).length ∧
    (encodeJVal kv.2).length + 4 ≤ (encodeField kv).length := by
  have h1 := escapeList_length_ge kv.1.data
  have h2 := encodeJVal_length_pos kv.2
  simp only [encodeField, List.length_cons, List.length_append]
  omega

theorem parseFieldsAux_encode : ∀ (o : JObj), o ≠ [] → ∀ fuel rest,
    (encodeFields o).length ≤ fuel →
    parseFieldsAux fuel (encodeFields o ++ '}' :: rest) = some (o, rest) := by
  intro o
  induction o with
  | nil => intro h; exact absurd rfl h
  | cons kv tl ih =>
    intro _ fuel rest hfuel
    obtain ⟨hklen, hvlen⟩ := encodeField_length_ge kv
    cases fuel with
    | zero =>
      exfalso
      have : 1 ≤ (encodeFields (kv :: tl)).length := by
        cases tl with
        | nil => show 1 ≤ (encodeField kv).length; omega
        | cons kv2 tl2 =>
          show 1 ≤ (encodeField kv ++ ',' :: ' ' :: encodeFields (kv2 :: tl2)).length
          simp only [List.length_append, List.length_cons]
          omega
      omega
    | succ f =>
      cases tl with
      | nil =>
        have hfuel2 : (encodeField kv).length ≤ f + 1 := hfuel
        have hstr := parseStrAux_escapeList kv.1.data (f + 1)
          (':' :: ' ' :: (encodeJVal kv.2 ++ '}' :: rest)) (by omega)
        have hval := parseJVal_encode kv.2 (f + 1) ('}' :: rest) (by omega)
          (by
            intro c hc
            cases hc
            decide)
        have harg : encodeFields [kv] ++ '}' :: rest =
            '"' :: (escapeList kv.1.data ++ '"' :: ':' :: ' ' ::
              (encodeJVal kv.2 ++ '}' :: rest)) := by
          show encodeField kv ++ '}' :: rest = _
          simp [encodeField, List.append_assoc]
        rw [harg]
        simp only [parseFieldsAux, hstr, hval]
      | cons kv2 tl2 =>
        have hlen2 : (encodeFields (kv :: kv2 :: tl2)).length =
            (encodeField kv).length + 2 + (encodeFields (kv2 :: tl2)).length := by
          show (encodeField kv ++ ',' :: ' ' :: encodeFields (kv2 :: tl2)).length = _
          simp only [List.length_append, List.length_cons]
          omega
        have hstr := parseStrAux_escapeList kv.1.data (f + 1)
          (':' :: ' ' :: (encodeJVal kv.2 ++ ',' :: ' ' ::
            (encodeFields (kv2 :: tl2) ++ '}' :: rest))) (by omega)
        have hval := parseJVal_encode kv.2 (f + 1)
          (',' :: ' ' :: (encodeFields (kv2 :: tl2) ++ '}' :: rest)) (by omega)
          (by
            intro c hc
            cases hc
            decide)
        have hrec := ih (by simp) f rest (by omega)
        have harg : encodeFields (kv :: kv2 :: tl2) ++ '}' :: rest =
            '"' :: (escapeList kv.1.data ++ '"' :: ':' :: ' ' ::
              (encodeJVal kv.2 ++ ',' :: ' ' ::
                (encodeFields (kv2 :: tl2) ++ '}' :: rest))) := by
          show (encodeField kv ++ ',' :: ' ' :: encodeFields (kv2 :: tl2)) ++ '}' :: rest = _
          simp [encodeField, List.append_assoc]
        rw [harg]
        simp only [parseFieldsAux, hstr, hval, hrec]

theorem parse_entry_json_dumps (o : JObj) : parse_entry (json_dumps o) = some o := by
  cases o with
  | nil => rfl
  | cons kv tl =>
    have hshape : ∃ t, encodeFields (kv :: tl) = '"' :: t := by
      cases tl with
      | nil => exact ⟨_, rfl⟩
      | cons kv2 tl2 => exact ⟨_, rfl⟩
    obtain ⟨t, ht⟩ := hshape
    have h2 : json_dumps (kv :: tl) = '{' :: '"' :: (t ++ ['}']) := by
      rw [json_dumps, ht]
      rfl
    rw [h2]
    show (match parseFieldsAux (('"' :: (t ++ ['}'])).length + 1) ('"' :: (t ++ ['}'])) with
      | some (o2, []) => some o2
      | _ => none) = some (kv :: tl)
    have harg : ('"' : Char) :: (t ++ ['}']) = encodeFields (kv :: tl) ++ '}' :: [] := by
      rw [ht]
      rfl
    rw [harg]
    rw [parseFieldsAux_encode (kv :: tl) (by simp) _ []
      (by simp only [List.length_append, List.length_cons]; omega)]

/-- Claim C1: `serialise_entries_to_jsonl` returns the JSON encodings of
the records in order, one per line joined by a newline with no trailing
newline: for a non-empty list the result splits on the newline character
into exactly the encodings of the records in order (hence exactly
`entries.length` lines), and every encoded line decodes back to the
record it came from; for the empty list the result is exactly the empty
string, not a newline and not a single empty line. -/
theorem serialise_entries_to_jsonl_correct :
    serialise_entries_to_jsonl [] = [] ∧
    (∀ entries : List JObj, entries ≠ [] →
      splitNL (serialise_entries_to_jsonl entries) = entries.map json_dumps ∧
      (splitNL (serialise_entries_to_jsonl entries)).length = entries.length) ∧
    (∀ e : JObj, parse_entry (json_dumps e) = some e) := by
  refine ⟨rfl, ?_, parse_entry_json_dumps⟩
  intro entries hne
  have hsplit : splitNL (serialise_entries_to_jsonl entries) = entries.map json_dumps := by
    obtain ⟨x, xs, rfl⟩ := List.exists_cons_of_ne_nil hne
    show splitNL (joinNewline ((x :: xs).map json_dumps)) = _
    refine splitNL_joinNewline _ (by simp) ?_
    intro l hl
    simp only [List.mem_map] at hl
    obtain ⟨o, _, rfl⟩ := hl
    exact json_dumps_no_nl o
  exact ⟨hsplit, by rw [hsplit, List.length_map]⟩

/-- Witness for C1 at a concrete singleton list. -/
theorem serialise_entries_to_jsonl_correct_witness :
    ([[("id", JVal.jint 7)]] : List JObj) ≠ [] ∧
    splitNL (serialise_entries_to_jsonl [[("id", JVal.jint 7)]]) =
      [json_dumps [("id", JVal.jint 7)]] ∧
    parse_entry (json_dumps [("id", JVal.jint 7)]) = some [("id", JVal.jint 7)] :=
  ⟨by decide,
   (serialise_entries_to_jsonl_correct.2.1 _ (by decide)).1,
   serialise_entries_to_jsonl_correct.2.2 _⟩

/-! ### Date arithmetic and formatting -/

theorem daysInMonth_le (y m : Nat) : daysInMonth y m ≤ 31 := by
  unfold daysInMonth
  split_ifs <;> omega

theorem daysInMonth_pos (y m : Nat) : 1 ≤ daysInMonth y m := by
  unfold daysInMonth
  split_ifs <;> omega

theorem nextDay_valid (d : PyDate) (hd : d.Valid) (hmax : d ≠ ⟨9999, 12, 31⟩) :
    d.nextDay.Valid := by
  obtain ⟨h1, h2, h3, h4, h5, h6⟩ := hd
  unfold PyDate.nextDay
  split_ifs with hlt hm
  · exact ⟨h1, h2, h3, h4, by show 1 ≤ d.day + 1; omega,
      by show d.day + 1 ≤ daysInMonth d.year d.month; omega⟩
  · exact ⟨h1, h2, by show 1 ≤ d.month + 1; omega, by show d.month + 1 ≤ 12; omega,
      le_refl 1, by show 1 ≤ daysInMonth d.year (d.month + 1); exact daysInMonth_pos _ _⟩
  · have hm12 : d.month = 12 := by omega
    have h31 : daysInMonth d.year d.month = 31 := by
      rw [hm12]
      unfold daysInMonth
      norm_num
    have hy : d.year ≤ 9998 := by
      rcases Nat.lt_or_ge d.year 9999 with h | h
      · omega
      · exfalso
        apply hmax
        have hy9 : d.year = 9999 := by omega
        have hday : d.day = 31 := by omega
        calc d = ⟨d.year, d.month, d.day⟩ := rfl
          _ = ⟨9999, 12, 31⟩ := by rw [hy9, hm12, hday]
    exact ⟨by show 1 ≤ d.year + 1; omega, by show d.year + 1 ≤ 9999; omega,
      le_refl 1, by show (1 : Nat) ≤ 12; omega, le_refl 1,
      by show 1 ≤ daysInMonth (d.year + 1) 1; exact daysInMonth_pos _ _⟩

theorem padNum_length (w n : Nat) (h : (natToDigits n).length ≤ w) :
    (padNum w n).length = w := by
  simp only [padNum, List.length_append, List.length_replicate]
  omega

theorem padNum_bounds (w n : Nat) : ∀ c ∈ padNum w n, '0' ≤ c ∧ c ≤ '9' := by
  intro c hc
  simp only [padNum, List.mem_append, List.mem_replicate] at hc
  rcases hc with ⟨_, rfl⟩ | hc
  · exact ⟨le_refl _, by decide⟩
  · exact natToDigits_bounds n c hc

theorem isoformat_shape (d : PyDate) (hd : d.Valid) : isYYYYMMDD d.isoformat := by
  obtain ⟨h1, h2, h3, h4, h5, h6⟩ := hd
  have hy : (natToDigits d.year).length ≤ 4 :=
    natToDigits_length_le _ 4 (by norm_num)
      (by rw [show (10 : Nat) ^ 4 = 10000 from by norm_num]; omega)
  have hm : (natToDigits d.month).length ≤ 2 :=
    natToDigits_length_le _ 2 (by norm_num)
      (by rw [show (10 : Nat) ^ 2 = 100 from by norm_num]; omega)
  have hday_le : d.day ≤ 31 := le_trans h6 (daysInMonth_le d.year d.month)
  have hdl : (natToDigits d.day).length ≤ 2 :=
    natToDigits_length_le _ 2 (by norm_num)
      (by rw [show (10 : Nat) ^ 2 = 100 from by norm_num]; omega)
  refine ⟨padNum 4 d.year, padNum 2 d.month, padNum 2 d.day, rfl,
    padNum_length _ _ hy, padNum_length _ _ hm, padNum_length _ _ hdl, ?_⟩
  intro c hc
  simp only [List.mem_append] at hc
  rcases hc with (hc | hc) | hc
  · exact padNum_bounds _ _ c hc
  · exact padNum_bounds _ _ c hc
  · exact padNum_bounds _ _ c hc

/-- Claim C3: for every valid, non-maximal date `d` and every response,
`get_time_entries` issues exactly one GET request, to the time-entries
endpoint, with query parameters `start_date = d` and
`end_date = d + 1 calendar day`, both rendered `YYYY-MM-DD`. -/
theorem get_time_entries_request_spec (status : Nat) (body : List JObj) (d : PyDate)
    (hd : d.Valid) (hmax : d ≠ ⟨9999, 12, 31⟩) :
    (get_time_entries status body d).1 =
      [⟨TIME_ENTRIES_ENDPOINT,
        [("start_date", d.isoformat), ("end_date", d.nextDay.isoformat)]⟩] ∧
    isYYYYMMDD d.isoformat ∧ isYYYYMMDD d.nextDay.isoformat :=
  ⟨rfl, isoformat_shape d hd, isoformat_shape d.nextDay (nextDay_valid d hd hmax)⟩

/-- Witness for C3 at the concrete date 2026-02-12. -/
theorem get_time_entries_request_spec_witness :
    (PyDate.Valid ⟨2026, 2, 12⟩ ∧ (⟨2026, 2, 12⟩ : PyDate) ≠ ⟨9999, 12, 31⟩) ∧
    (get_time_entries 200 [] ⟨2026, 2, 12⟩).1 =
      [⟨TIME_ENTRIES_ENDPOINT,
        [("start_date", "2026-02-12"), ("end_date", "2026-02-13")]⟩] := by
  refine ⟨⟨by decide, by decide⟩, ?_⟩
  have h := (get_time_entries_request_spec 200 [] ⟨2026, 2, 12⟩ (by decide) (by decide)).1
  rw [h]
  have hs : (PyDate.isoformat ⟨2026, 2, 12⟩) = "2026-02-12" := by decide
  have he : (PyDate.isoformat (PyDate.nextDay ⟨2026, 2, 12⟩)) = "2026-02-13" := by decide
  rw [hs, he]

/-! ### Normalization of raw time-entry records -/

theorem normalize_entry_cases (r : JObj) :
    (wellFormedRaw r ∧ normalize_entry r = Except.ok (normalized_form r)) ∨
    (∃ k, k ∈ requiredKeys ∧ jget? r k = none ∧
      normalize_entry r = Except.error k) := by
  cases hvi : jget? r "id" with
  | none =>
    right
    exact ⟨"id", by simp [requiredKeys], hvi,
      by simp [normalize_entry, required_field, hvi, Bind.bind, Except.bind]⟩
  | some vi =>
  cases hvd : jget? r "description" with
  | none =>
    right
    exact ⟨"description", by simp [requiredKeys], hvd,
      by simp [normalize_entry, required_field, hvi, hvd, Bind.bind, Except.bind]⟩
  | some vd =>
  cases hvs : jget? r "start" with
  | none =>
    right
    exact ⟨"start", by simp [requiredKeys], hvs,
      by simp [normalize_entry, required_field, hvi, hvd, hvs, Bind.bind, Except.bind]⟩
  | some vs =>
  cases hvt : jget? r "stop" with
  | none =>
    right
    exact ⟨"stop", by simp [requiredKeys], hvt,
      by simp [normalize_entry, required_field, hvi, hvd, hvs, hvt, Bind.bind, Except.bind]⟩
  | some vt =>
  cases hvu : jget? r "duration" with
  | none =>
    right
    exact ⟨"duration", by simp [requiredKeys], hvu,
      by simp [normalize_entry, required_field, hvi, hvd, hvs, hvt, hvu,
        Bind.bind, Except.bind]⟩
  | some vu =>
  left
  constructor
  · intro k hk
    simp only [requiredKeys, List.mem_cons, List.not_mem_nil, or_false] at hk
    rcases hk with rfl | rfl | rfl | rfl | rfl <;> simp [hvi, hvd, hvs, hvt, hvu]
  · simp [normalize_entry, required_field, normalized_form, hvi, hvd, hvs, hvt, hvu,
      Bind.bind, Except.bind, pure, Except.pure]

theorem normalize_entry_eq_of_wf (r : JObj) (hw : wellFormedRaw r) :
    normalize_entry r = Except.ok (normalized_form r) := by
  rcases normalize_entry_cases r with ⟨_, h⟩ | ⟨k, hk, hnone, _⟩
  · exact h
  · exact absurd (hw k hk) (by simp [hnone])

theorem normalize_entry_error_key (r : JObj) (k : String)
    (h : normalize_entry r = Except.error k) : k ∈ requiredKeys := by
  rcases normalize_entry_cases r with ⟨_, hok⟩ | ⟨k2, hk2, _, herr⟩
  · rw [hok] at h
    cases h
  · rw [herr] at h
    injection h with h2
    subst h2
    exact hk2

theorem normalize_entries_ok_of_wf (body : List JObj)
    (hw : ∀ r ∈ body, wellFormedRaw r) :
    normalize_entries body = Except.ok (body.map normalized_form) := by
  induction body with
  | nil => rfl
  | cons r rs ih =>
    simp [normalize_entries, normalize_entry_eq_of_wf r (hw r (by simp)),
      ih (fun x hx => hw x (by simp [hx])), Bind.bind, Except.bind, pure, Except.pure]

theorem normalize_entries_error (body : List JObj) (r : JObj) (hr : r ∈ body)
    (k : String) (hk : normalize_entry r = Except.error k) :
    ∃ k2, (∃ r2 ∈ body, normalize_entry r2 = Except.error k2) ∧
      normalize_entries body = Except.error k2 := by
  induction body with
  | nil => cases hr
  | cons x xs ih =>
    cases hx : normalize_entry x with
    | error e =>
      exact ⟨e, ⟨x, by simp, hx⟩,
        by simp [normalize_entries, hx, Bind.bind, Except.bind]⟩
    | ok o =>
      rcases List.mem_cons.mp hr with rfl | hr2
      · rw [hx] at hk
        cases hk
      · obtain ⟨k2, ⟨r2, hr2mem, herr2⟩, herr⟩ := ih hr2
        exact ⟨k2, ⟨r2, List.mem_cons_of_mem _ hr2mem, herr2⟩,
          by simp [normalize_entries, hx, herr, Bind.bind, Except.bind]⟩

theorem normalize_entries_ok_mem (body : List JObj) :
    ∀ es : List JObj, normalize_entries body = Except.ok es →
    ∀ e ∈ es, ∃ r, normalize_entry r = Except.ok e := by
  induction body with
  | nil =>
    intro es h e he
    have hes : es = [] := by
      have h2 : (Except.ok [] : Except String (List JObj)) = Except.ok es := h
      injection h2 with h3
      exact h3.symm
    subst hes
    cases he
  | cons x xs ih =>
    intro es h e he
    cases hx : normalize_entry x with
    | error k =>
      rw [show normalize_entries (x :: xs) = Except.error k from
        by simp [normalize_entries, hx, Bind.bind, Except.bind]] at h
      cases h
    | ok o =>
      cases hxs : normalize_entries xs with
      | error k =>
        rw [show normalize_entries (x :: xs) = Except.error k from
          by simp [normalize_entries, hx, hxs, Bind.bind, Except.bind]] at h
        cases h
      | ok os =>
        rw [show normalize_entries (x :: xs) = Except.ok (o :: os) from
          by simp [normalize_entries, hx, hxs, Bind.bind, Except.bind, pure,
            Except.pure]] at h
        injection h with h2
        subst h2
        rcases List.mem_cons.mp he with rfl | he2
        · exact ⟨x, hx⟩
        · exact ih os hxs e he2

/-- Claim C2: on a success response, `get_time_entries` maps the raw
records one-to-one and in order to normalized entries with exactly the
keys id, project_id, description, start, stop, duration; the five
required fields are copied verbatim, `project_id` is always present and
is null exactly when the raw record lacks it (or carries null), and an
empty response yields the empty list (never a null-like value). -/
theorem get_time_entries_normalizes (status : Nat) (body : List JObj) (d : PyDate)
    (hok : raise_for_status_fails status = false)
    (hw : ∀ r ∈ body, wellFormedRaw r) :
    (get_time_entries status body d).2 = Except.ok (body.map normalized_form) ∧
    (body.map normalized_form).length = body.length ∧
    (body = [] → (get_time_entries status body d).2 = Except.ok []) ∧
    (∀ r ∈ body,
      (normalized_form r).map Prod.fst =
        ["id", "project_id", "description", "start", "stop", "duration"] ∧
      jget? (normalized_form r) "id" = jget? r "id" ∧
      jget? (normalized_form r) "description" = jget? r "description" ∧
      jget? (normalized_form r) "start" = jget? r "start" ∧
      jget? (normalized_form r) "stop" = jget? r "stop" ∧
      jget? (normalized_form r) "duration" = jget? r "duration" ∧
      jget? (normalized_form r) "project_id" =
        some ((jget? r "project_id").getD JVal.jnull)) := by
  have hmain : (get_time_entries status body d).2 =
      Except.ok (body.map normalized_form) := by
    simp [get_time_entries, hok, normalize_entries_ok_of_wf body hw]
  refine ⟨hmain, by simp, ?_, ?_⟩
  · intro hnil
    subst hnil
    exact hmain
  · intro r hr
    obtain ⟨vi, hvi⟩ := Option.isSome_iff_exists.mp (hw r hr "id" (by simp [requiredKeys]))
    obtain ⟨vd, hvd⟩ :=
      Option.isSome_iff_exists.mp (hw r hr "description" (by simp [requiredKeys]))
    obtain ⟨vs, hvs⟩ :=
      Option.isSome_iff_exists.mp (hw r hr "start" (by simp [requiredKeys]))
    obtain ⟨vt, hvt⟩ :=
      Option.isSome_iff_exists.mp (hw r hr "stop" (by simp [requiredKeys]))
    obtain ⟨vu, hvu⟩ :=
      Option.isSome_iff_exists.mp (hw r hr "duration" (by simp [requiredKeys]))
    refine ⟨by simp [normalized_form], ?_, ?_, ?_, ?_, ?_, ?_⟩ <;>
      simp [normalized_form, jget?, hvi, hvd, hvs, hvt, hvu]

/-- Witness for C2 at a concrete one-record response lacking
`project_id`. -/
theorem get_time_entries_normalizes_witness :
    (raise_for_status_fails 200 = false ∧
      (∀ r ∈ [[(("id" : String), JVal.jint 1), ("description", JVal.jstr "d"),
        ("start", JVal.jstr "s"), ("stop", JVal.jstr "t"),
        ("duration", JVal.jint 9)]], wellFormedRaw r)) ∧
    (get_time_entries 200
      [[(("id" : String), JVal.jint 1), ("description", JVal.jstr "d"),
        ("start", JVal.jstr "s"), ("stop", JVal.jstr "t"),
        ("duration", JVal.jint 9)]] ⟨2026, 2, 12⟩).2 =
      Except.ok [[(("id" : String), JVal.jint 1), ("project_id", JVal.jnull),
        ("description", JVal.jstr "d"), ("start", JVal.jstr "s"),
        ("stop", JVal.jstr "t"), ("duration", JVal.jint 9)]] :=
  ⟨⟨by decide, by decide⟩,
   (get_time_entries_normalizes 200 _ ⟨2026, 2, 12⟩ (by decide) (by decide)).1⟩

/-- The time-entries URL is never the projects URL, for any workspace
id (their lengths already differ). -/
theorem projects_endpoint_ne (workspace_id : String) :
    TIME_ENTRIES_ENDPOINT ≠ PROJECTS_ENDPOINT workspace_id := by
  intro h
  have hlen : TIME_ENTRIES_ENDPOINT.length = (PROJECTS_ENDPOINT workspace_id).length := by
    rw [h]
  rw [PROJECTS_ENDPOINT, String.length_append, String.length_append] at hlen
  have h1 : TIME_ENTRIES_ENDPOINT.length = 50 := by decide
  have h2 : ("https://api.track.toggl.com/api/v9/workspaces/" : String).length = 46 := by
    decide
  have h3 : ("/projects" : String).length = 9 := by decide
  omega

/-- Claim C7: `get_time_entries` issues exactly one request; that
request never targets any projects endpoint (so the project-map
capability `get_project_map` is never exercised), and on success every
returned entry carries exactly the six normalized keys — in particular
no `project_name`, only the raw `project_id`. -/
theorem get_time_entries_no_project_map (status : Nat) (body : List JObj) (d : PyDate) :
    (get_time_entries status body d).1.length = 1 ∧
    (∀ r ∈ (get_time_entries status body d).1,
      ∀ workspace_id : String, ∀ st2 : Nat, ∀ body2 : List JObj,
      ∀ r2 ∈ (get_project_map workspace_id st2 body2).1, r.url ≠ r2.url) ∧
    (∀ out, (get_time_entries status body d).2 = Except.ok out →
      ∀ e ∈ out, jget? e "project_name" = none ∧
        e.map Prod.fst =
          ["id", "project_id", "description", "start", "stop", "duration"]) := by
  refine ⟨rfl, ?_, ?_⟩
  · intro r hr workspace_id st2 body2 r2 hr2
    have hru : r.url = TIME_ENTRIES_ENDPOINT := by
      simp only [get_time_entries, time_entries_request, List.mem_singleton] at hr
      rw [hr]
    have hru2 : r2.url = PROJECTS_ENDPOINT workspace_id := by
      simp only [get_project_map, List.mem_singleton] at hr2
      rw [hr2]
    rw [hru, hru2]
    exact projects_endpoint_ne workspace_id
  · intro out hout e he
    have hsnd : (get_time_entries status body d).2 =
        (if raise_for_status_fails status then
          Except.error (FetchError.httpStatus status)
        else match normalize_entries body with
          | Except.ok es => Except.ok es
          | Except.error k => Except.error (FetchError.keyError k)) := rfl
    rw [hsnd] at hout
    by_cases hst : raise_for_status_fails status
    · rw [if_pos hst] at hout
      cases hout
    · rw [if_neg hst] at hout
      cases hne : normalize_entries body with
      | error k =>
        rw [hne] at hout
        cases hout
      | ok es =>
        rw [hne] at hout
        injection hout with h2
        subst h2
        obtain ⟨r, hr⟩ := normalize_entries_ok_mem body es hne e he
        have := normalize_entry_cases r
        rcases this with ⟨_, hok⟩ | ⟨k, _, _, herr⟩
        · rw [hok] at hr
          injection hr with h3
          subst h3
          constructor
          · simp [normalized_form, jget?]
          · simp [normalized_form]
        · rw [herr] at hr
          cases hr

/-- Witness for C7 at a concrete success response. -/
theorem get_time_entries_no_project_map_witness :
    (get_time_entries 200 [] ⟨2026, 2, 12⟩).1.length = 1 ∧
    (∀ r ∈ (get_time_entries 200 [] ⟨2026, 2, 12⟩).1,
      ∀ r2 ∈ (get_project_map "ws_123" 200 []).1, r.url ≠ r2.url) :=
  ⟨(get_time_entries_no_project_map 200 [] ⟨2026, 2, 12⟩).1,
   fun r hr r2 hr2 =>
     (get_time_entries_no_project_map 200 [] ⟨2026, 2, 12⟩).2.1 r hr "ws_123" 200 [] r2 hr2⟩

/-- Claim C9: only `project_id` is optional: if any raw record of a
success response lacks one of the required fields id, description,
start, stop, duration, then `get_time_entries` fails with a key-lookup
error naming a required key, rather than producing entries with a
defaulted value. -/
theorem get_time_entries_missing_required (status : Nat) (body : List JObj) (d : PyDate)
    (hok : raise_for_status_fails status = false)
    (r : JObj) (hr : r ∈ body) (k : String) (hk : k ∈ requiredKeys)
    (hmiss : jget? r k = none) :
    ∃ k2 ∈ requiredKeys,
      (get_time_entries status body d).2 = Except.error (FetchError.keyError k2) := by
  rcases normalize_entry_cases r with ⟨hw, _⟩ | ⟨k0, _, _, herr⟩
  · exact absurd (hw k hk) (by simp [hmiss])
  · obtain ⟨k2, ⟨r2, _, herr3⟩, herr2⟩ := normalize_entries_error body r hr k0 herr
    exact ⟨k2, normalize_entry_error_key r2 k2 herr3,
      by simp [get_time_entries, hok, herr2]⟩

/-- Witness for C9 at a concrete record lacking `duration`. -/
theorem get_time_entries_missing_required_witness :
    (raise_for_status_fails 200 = false ∧
      ("duration" : String) ∈ requiredKeys ∧
      jget? [(("id" : String), JVal.jint 1)] "duration" = none) ∧
    ∃ k2 ∈ requiredKeys,
      (get_time_entries 200 [[(("id" : String), JVal.jint 1)]] ⟨2026, 2, 12⟩).2 =
        Except.error (FetchError.keyError k2) :=
  ⟨⟨by decide, by decide, by decide⟩,
   get_time_entries_missing_required 200 [[(("id" : String), JVal.jint 1)]]
     ⟨2026, 2, 12⟩ (by decide) [(("id" : String), JVal.jint 1)] (by decide)
     "duration" (by decide) (by decide)⟩

/-! ### The handler -/

theorem get_time_entries_fst (status : Nat) (body : List JObj) (d : PyDate) :
    (get_time_entries status body d).1 = [time_entries_request d] := rfl

theorem lambda_handler_login_fail (api : TogglApi) (s3_ok : Bool) (bucket : String)
    (today : PyDate) (h : raise_for_status_fails api.login_status = true) :
    lambda_handler api s3_ok bucket today =
      ([Event.sessionOpen, Event.httpPost AUTH_ENDPOINT],
       Except.error (HandlerError.authError api.login_status)) := by
  simp [lambda_handler, h]

theorem lambda_handler_fetch_fail (api : TogglApi) (s3_ok : Bool) (bucket : String)
    (today : PyDate) (e : FetchError)
    (h : raise_for_status_fails api.login_status = false)
    (he : (get_time_entries api.entries_status api.entries_body today).2 =
      Except.error e) :
    lambda_handler api s3_ok bucket today =
      ([Event.sessionOpen, Event.httpPost AUTH_ENDPOINT,
        Event.httpGet (time_entries_request today), Event.sessionClose],
       Except.error (HandlerError.fetchError e)) := by
  simp [lambda_handler, h, he, get_time_entries_fst]

theorem lambda_handler_success (api : TogglApi) (s3_ok : Bool) (bucket : String)
    (today : PyDate) (entries : List JObj)
    (h : raise_for_status_fails api.login_status = false)
    (he : (get_time_entries api.entries_status api.entries_body today).2 =
      Except.ok entries) :
    lambda_handler api s3_ok bucket today =
      ([Event.sessionOpen, Event.httpPost AUTH_ENDPOINT,
        Event.httpGet (time_entries_request today), Event.sessionClose,
        Event.putObject ⟨bucket, s3_key_for today,
          serialise_entries_to_jsonl entries, "application/jsonl"⟩],
       if s3_ok then
         Except.ok ⟨200, json_dumps
           [("entries_uploaded", JVal.jint entries.length),
            ("s3_key", JVal.jstr (s3_key_for today))]⟩
       else Except.error HandlerError.storageError) := by
  cases s3_ok <;> simp [lambda_handler, h, he, get_time_entries_fst]

theorem get_time_entries_fetch_http_fail (status : Nat) (body : List JObj) (d : PyDate)
    (h : raise_for_status_fails status = true) :
    (get_time_entries status body d).2 = Except.error (FetchError.httpStatus status) := by
  simp [get_time_entries, h]

/-- Claim C4: on every successful invocation exactly one `put_object`
call happens, with `Bucket` the configured bucket, `Key` the invocation
date rendered `YYYY-MM-DD` followed by `/time_entries.jsonl` (for
2026-02-12 exactly `"2026-02-12/time_entries.jsonl"`), `Body` the JSONL
serialisation of the fetched entries and `ContentType`
`application/jsonl`; with zero entries fetched the uploaded body is the
empty string. -/
theorem lambda_handler_put_object (api : TogglApi) (s3_ok : Bool) (bucket : String)
    (today : PyDate) (res : HandlerResult)
    (hres : (lambda_handler api s3_ok bucket today).2 = Except.ok res) :
    ∃ entries, (get_time_entries api.entries_status api.entries_body today).2 =
        Except.ok entries ∧
      putCallsOf (lambda_handler api s3_ok bucket today).1 =
        [⟨bucket, s3_key_for today, serialise_entries_to_jsonl entries,
          "application/jsonl"⟩] ∧
      (api.entries_body = [] → serialise_entries_to_jsonl entries = []) ∧
      s3_key_for ⟨2026, 2, 12⟩ = "2026-02-12/time_entries.jsonl" := by
  cases hl : raise_for_status_fails api.login_status with
  | true =>
    rw [lambda_handler_login_fail api s3_ok bucket today hl] at hres
    cases hres
  | false =>
    cases hf : (get_time_entries api.entries_status api.entries_body today).2 with
    | error e =>
      rw [lambda_handler_fetch_fail api s3_ok bucket today e hl hf] at hres
      cases hres
    | ok entries =>
      rw [lambda_handler_success api s3_ok bucket today entries hl hf] at hres
      cases s3_ok with
      | false => simp at hres
      | true =>
        refine ⟨entries, rfl, ?_, ?_, by decide⟩
        · rw [lambda_handler_success api true bucket today entries hl hf]
          simp [putCallsOf]
        · intro hnil
          rw [hnil] at hf
          cases hst : raise_for_status_fails api.entries_status with
          | true =>
            rw [get_time_entries_fetch_http_fail api.entries_status [] today hst] at hf
            cases hf
          | false =>
            have hok0 : (get_time_entries api.entries_status [] today).2 =
                Except.ok [] := by
              simp [get_time_entries, hst, normalize_entries]
            rw [hok0] at hf
            injection hf with h2
            rw [← h2]
            rfl

/-- Witness for C4 at a concrete successful zero-entry invocation. -/
theorem lambda_handler_put_object_witness :
    ((lambda_handler ⟨200, 200, []⟩ true "my-bucket" ⟨2026, 2, 12⟩).2 =
      Except.ok ⟨200, json_dumps [("entries_uploaded", JVal.jint 0),
        ("s3_key", JVal.jstr "2026-02-12/time_entries.jsonl")]⟩) ∧
    ∃ entries, (get_time_entries 200 [] ⟨2026, 2, 12⟩).2 = Except.ok entries ∧
      putCallsOf (lambda_handler ⟨200, 200, []⟩ true "my-bucket" ⟨2026, 2, 12⟩).1 =
        [⟨"my-bucket", s3_key_for ⟨2026, 2, 12⟩, serialise_entries_to_jsonl entries,
          "application/jsonl"⟩] ∧
      ((⟨200, 200, []⟩ : TogglApi).entries_body = [] →
        serialise_entries_to_jsonl entries = []) ∧
      s3_key_for ⟨2026, 2, 12⟩ = "2026-02-12/time_entries.jsonl" :=
  ⟨by decide,
   lambda_handler_put_object ⟨200, 200, []⟩ true "my-bucket" ⟨2026, 2, 12⟩
     ⟨200, json_dumps [("entries_uploaded", JVal.jint 0),
       ("s3_key", JVal.jstr "2026-02-12/time_entries.jsonl")]⟩ (by decide)⟩

/-- Claim C5: every successful invocation returns statusCode 200 with a
JSON-encoded body that decodes to an object carrying
`entries_uploaded = number of fetched entries` and `s3_key = the storage
key`; there is no other return path — whenever login, the fetch, or the
upload fails, the handler result is a propagated error, never a non-200
result value. -/
theorem lambda_handler_response (api : TogglApi) (s3_ok : Bool) (bucket : String)
    (today : PyDate) :
    (∀ res, (lambda_handler api s3_ok bucket today).2 = Except.ok res →
      res.statusCode = 200 ∧
      ∃ entries, (get_time_entries api.entries_status api.entries_body today).2 =
          Except.ok entries ∧
        parse_entry res.body = some
          [("entries_uploaded", JVal.jint entries.length),
           ("s3_key", JVal.jstr (s3_key_for today))]) ∧
    ((raise_for_status_fails api.login_status = true ∨
      (∃ e, (get_time_entries api.entries_status api.entries_body today).2 =
        Except.error e) ∨ s3_ok = false) →
      ∃ err, (lambda_handler api s3_ok bucket today).2 = Except.error err) := by
  constructor
  · intro res hres
    cases hl : raise_for_status_fails api.login_status with
    | true =>
      rw [lambda_handler_login_fail api s3_ok bucket today hl] at hres
      cases hres
    | false =>
      cases hf : (get_time_entries api.entries_status api.entries_body today).2 with
      | error e =>
        rw [lambda_handler_fetch_fail api s3_ok bucket today e hl hf] at hres
        cases hres
      | ok entries =>
        rw [lambda_handler_success api s3_ok bucket today entries hl hf] at hres
        cases s3_ok with
        | false => simp at hres
        | true =>
          have hres2 : Except.ok (⟨200, json_dumps
              [("entries_uploaded", JVal.jint entries.length),
               ("s3_key", JVal.jstr (s3_key_for today))]⟩ : HandlerResult) =
              Except.ok res := hres
          injection hres2 with h2
          rw [← h2]
          exact ⟨rfl, entries, rfl, parse_entry_json_dumps _⟩
  · intro hfail
    cases hl : raise_for_status_fails api.login_status with
    | true =>
      exact ⟨HandlerError.authError api.login_status,
        by rw [lambda_handler_login_fail api s3_ok bucket today hl]⟩
    | false =>
      cases hf : (get_time_entries api.entries_status api.entries_body today).2 with
      | error e =>
        exact ⟨HandlerError.fetchError e,
          by rw [lambda_handler_fetch_fail api s3_ok bucket today e hl hf]⟩
      | ok entries =>
        cases hs : s3_ok with
        | false =>
          refine ⟨HandlerError.storageError, ?_⟩
          rw [lambda_handler_success api false bucket today entries hl hf]
          rfl
        | true =>
          exfalso
          rcases hfail with h | ⟨e, he⟩ | h
          · rw [hl] at h
            cases h
          · rw [hf] at he
            cases he
          · rw [hs] at h
            cases h
    
/-- Witness for C5 at a concrete successful invocation. -/
theorem lambda_handler_response_witness :
    ((lambda_handler ⟨200, 200, []⟩ true "b" ⟨2026, 2, 12⟩).2 =
      Except.ok ⟨200, json_dumps [("entries_uploaded", JVal.jint 0),
        ("s3_key", JVal.jstr "2026-02-12/time_entries.jsonl")]⟩) ∧
    ((⟨200, json_dumps [("entries_uploaded", JVal.jint 0),
        ("s3_key", JVal.jstr "2026-02-12/time_entries.jsonl")]⟩ :
      HandlerResult).statusCode = 200 ∧
      ∃ entries, (get_time_entries 200 [] ⟨2026, 2, 12⟩).2 = Except.ok entries ∧
        parse_entry (⟨200, json_dumps [("entries_uploaded", JVal.jint 0),
          ("s3_key", JVal.jstr "2026-02-12/time_entries.jsonl")]⟩ :
            HandlerResult).body = some
          [("entries_uploaded", JVal.jint entries.length),
           ("s3_key", JVal.jstr (s3_key_for ⟨2026, 2, 12⟩))]) :=
  ⟨by decide,
   (lambda_handler_response ⟨200, 200, []⟩ true "b" ⟨2026, 2, 12⟩).1
     ⟨200, json_dumps [("entries_uploaded", JVal.jint 0),
       ("s3_key", JVal.jstr "2026-02-12/time_entries.jsonl")]⟩ (by decide)⟩

/-- Claim C8: if authentication or the time-entries fetch fails with a
non-success HTTP status, the error propagates and `put_object` is never
called; and in every invocation either nothing is uploaded or exactly
one object holding the whole fetched batch is uploaded — there is no
partial-upload state. -/
theorem lambda_handler_no_partial_upload (api : TogglApi) (s3_ok : Bool)
    (bucket : String) (today : PyDate) :
    ((raise_for_status_fails api.login_status = true ∨
      raise_for_status_fails api.entries_status = true) →
      (∃ err, (lambda_handler api s3_ok bucket today).2 = Except.error err) ∧
      putCallsOf (lambda_handler api s3_ok bucket today).1 = []) ∧
    (putCallsOf (lambda_handler api s3_ok bucket today).1 = [] ∨
      ∃ entries, (get_time_entries api.entries_status api.entries_body today).2 =
          Except.ok entries ∧
        putCallsOf (lambda_handler api s3_ok bucket today).1 =
          [⟨bucket, s3_key_for today, serialise_entries_to_jsonl entries,
            "application/jsonl"⟩]) := by
  constructor
  · intro hfail
    cases hl : raise_for_status_fails api.login_status with
    | true =>
      rw [lambda_handler_login_fail api s3_ok bucket today hl]
      exact ⟨⟨HandlerError.authError api.login_status, rfl⟩, rfl⟩
    | false =>
      have hst : raise_for_status_fails api.entries_status = true := by
        rcases hfail with h | h
        · rw [hl] at h
          cases h
        · exact h
      have hf := get_time_entries_fetch_http_fail api.entries_status
        api.entries_body today hst
      rw [lambda_handler_fetch_fail api s3_ok bucket today _ hl hf]
      exact ⟨⟨HandlerError.fetchError (FetchError.httpStatus api.entries_status), rfl⟩, rfl⟩
  · cases hl : raise_for_status_fails api.login_status with
    | true =>
      left
      rw [lambda_handler_login_fail api s3_ok bucket today hl]
      rfl
    | false =>
      cases hf : (get_time_entries api.entries_status api.entries_body today).2 with
      | error e =>
        left
        rw [lambda_handler_fetch_fail api s3_ok bucket today e hl hf]
        rfl
      | ok entries =>
        right
        refine ⟨entries, rfl, ?_⟩
        rw [lambda_handler_success api s3_ok bucket today entries hl hf]
        cases s3_ok <;> simp [putCallsOf]

/-- Witness for C8 at a concrete failed-login invocation. -/
theorem lambda_handler_no_partial_upload_witness :
    (raise_for_status_fails (401 : Nat) = true ∨
      raise_for_status_fails (200 : Nat) = true) ∧
    (∃ err, (lambda_handler ⟨401, 200, []⟩ true "b" ⟨2026, 2, 12⟩).2 =
      Except.error err) ∧
    putCallsOf (lambda_handler ⟨401, 200, []⟩ true "b" ⟨2026, 2, 12⟩).1 = [] :=
  ⟨Or.inl (by decide),
   (lambda_handler_no_partial_upload ⟨401, 200, []⟩ true "b" ⟨2026, 2, 12⟩).1
     (Or.inl (by decide))⟩

/-- Counterexample to C6 as stated: on a login failure (HTTP 401) the
session is opened but never closed — `TogglClient.__init__` runs (and
raises) before the `with` statement binds the context manager, so
`__exit__` never runs on the construction/login-failure path. -/
theorem session_not_closed_on_login_failure :
    Event.sessionOpen ∈ (lambda_handler ⟨401, 200, []⟩ true "bucket" ⟨2026, 2, 12⟩).1 ∧
    (lambda_handler ⟨401, 200, []⟩ true "bucket" ⟨2026, 2, 12⟩).1.count
      Event.sessionClose = 0 ∧
    (lambda_handler ⟨401, 200, []⟩ true "bucket" ⟨2026, 2, 12⟩).2 =
      Except.error (HandlerError.authError 401) := by
  decide

/-- Amended C6: once the client is constructed (login succeeded), the
session is closed exactly once on every exit path — normal return, fetch
failure, upload failure; but when construction/login fails the session
is opened and never closed by the invocation. -/
theorem session_close_exact (api : TogglApi) (s3_ok : Bool) (bucket : String)
    (today : PyDate) :
    Event.sessionOpen ∈ (lambda_handler api s3_ok bucket today).1 ∧
    (raise_for_status_fails api.login_status = false →
      (lambda_handler api s3_ok bucket today).1.count Event.sessionClose = 1) ∧
    (raise_for_status_fails api.login_status = true →
      (lambda_handler api s3_ok bucket today).1.count Event.sessionClose = 0) := by
  cases hl : raise_for_status_fails api.login_status with
  | true =>
    rw [lambda_handler_login_fail api s3_ok bucket today hl]
    refine ⟨by simp, ?_, ?_⟩
    · intro h
      cases h
    · intro _
      rfl
  | false =>
    cases hf : (get_time_entries api.entries_status api.entries_body today).2 with
    | error e =>
      rw [lambda_handler_fetch_fail api s3_ok bucket today e hl hf]
      refine ⟨by simp, ?_, ?_⟩
      · intro _
        simp [List.count_cons, List.count_nil]
      · intro h
        cases h
    | ok entries =>
      rw [lambda_handler_success api s3_ok bucket today entries hl hf]
      refine ⟨by simp, ?_, ?_⟩
      · intro _
        simp [List.count_cons, List.count_nil]
      · intro h
        cases h

/-- Witness for the amended C6 at a concrete successful invocation. -/
theorem session_close_exact_witness :
    raise_for_status_fails (200 : Nat) = false ∧
    (lambda_handler ⟨200, 200, []⟩ true "bucket" ⟨2026, 2, 12⟩).1.count
      Event.sessionClose = 1 :=
  ⟨by decide,
   (session_close_exact ⟨200, 200, []⟩ true "bucket" ⟨2026, 2, 12⟩).2.1 (by decide)⟩
